import Mathlib

/-!
Shallow embedding of `process_data` from `src/fflogsplot/fflogsplot.py`
(repository michaudcordell/fflogsplot), together with theorems settling the
spec claims about it.

Numeric modelling: the Python code applies `float(...)` to the raw JSON
values for times and percentages and `int(...)` to phase indices and the day
number.  All arithmetic performed on them here (subtraction, division by the
constants 1000, 60, 60, addition, `max`) is modelled exactly over `ℚ`
(times, percentages, hours) and `ℤ` (phase index, day number).
-/

/-- One entry of a report's `fights` array: the fields of `fightdict` that
`process_data` reads (`startTime`, `endTime`, `lastPhaseAsAbsoluteIndex`,
`fightPercentage`). -/
structure Fight where
  startTime : ℚ
  endTime : ℚ
  lastPhaseAsAbsoluteIndex : ℤ
  fightPercentage : ℚ
deriving DecidableEq, Repr

/-- One entry of `raw_json_dict["reports"]["data"]`.  The code only reads the
report's title through `int(reportdict["title"].split()[-1])`; the `day`
field holds the result of that parse (the trailing numeral of the title), and
`fights` is the report's `fights` array. -/
structure Report where
  day : ℤ
  fights : List Fight
deriving DecidableEq, Repr

/-- The raw document passed to `process_data`: the list
`raw_json_dict["reports"]["data"]` in its stored (newest-first) order. -/
structure RawDoc where
  reports : List Report
deriving DecidableEq, Repr

/-- One row of the processed table: the twelve columns appended per fight in
the inner loop of `process_data`, in source order. -/
structure ProgressRow where
  cumulativePulls : ℕ
  day : ℤ
  pull : ℕ
  pullStartTime : ℚ
  pullEndTime : ℚ
  pullPhase : ℤ
  historicalHighestPhase : ℤ
  pullFightCompletion : ℚ
  historicalHighestFightCompletion : ℚ
  pullDuration : ℚ
  dailyCumulativeHours : ℚ
  totalCumulativeHours : ℚ
deriving DecidableEq, Repr

/-- The accumulator state carried across the outer loop of `process_data`:
`cumulative_pulls`, `total_cumulative_hours`, `highest_phase`,
`highest_fight_completion`. -/
structure ProcState where
  cumulativePulls : ℕ
  totalCumulativeHours : ℚ
  highestPhase : ℤ
  highestFightCompletion : ℚ
deriving DecidableEq, Repr

/-- The inner loop of `process_data` over one report's `fights` array:
`day` is the report's day number, `k` the current `pull_index`, `daily` the
current `daily_cumulative_hours`, `st` the global accumulator state.
Returns the rows emitted for the remaining fights and the final state. -/
def processFights (day : ℤ) : ℕ → ℚ → ProcState → List Fight →
    List ProgressRow × ProcState
  | _, _, st, [] => ([], st)
  | k, daily, st, f :: fs =>
    let pullDuration := (f.endTime - f.startTime) / 1000
    let daily2 := daily + pullDuration / 60 / 60
    let total2 := st.totalCumulativeHours + pullDuration / 60 / 60
    let hp2 := max st.highestPhase f.lastPhaseAsAbsoluteIndex
    let hc2 := max st.highestFightCompletion (100 - f.fightPercentage)
    let row : ProgressRow :=
      ⟨st.cumulativePulls, day, k + 1, f.startTime, f.endTime,
        f.lastPhaseAsAbsoluteIndex, hp2, 100 - f.fightPercentage, hc2,
        pullDuration, daily2, total2⟩
    let rest := processFights day (k + 1) daily2
      ⟨st.cumulativePulls + 1, total2, hp2, hc2⟩ fs
    (row :: rest.1, rest.2)

/-- The outer loop of `process_data` over the (already reversed) report list:
for each report the day number is read, `daily_cumulative_hours` and
`pull_index` restart at zero, and the inner loop runs over its fights. -/
def processReports : ProcState → List Report → List ProgressRow × ProcState
  | st, [] => ([], st)
  | st, r :: rs =>
    let this := processFights r.day 0 0 st r.fights
    let rest := processReports this.2 rs
    (this.1 ++ rest.1, rest.2)

/-- The initial accumulator values of `process_data`: `cumulative_pulls = 1`,
`total_cumulative_hours = 0.0`, `highest_phase = 0`,
`highest_fight_completion = 0.0`. -/
def initState : ProcState := ⟨1, 0, 0, 0⟩

/-- The row table built by `process_data`: the report list is reversed
(`[::-1]`) and folded with the initial accumulator state. -/
def processRows (doc : RawDoc) : List ProgressRow :=
  (processReports initState doc.reports.reverse).1

theorem processFights_length (day : ℤ) (k : ℕ) (daily : ℚ) (st : ProcState)
    (fs : List Fight) :
    (processFights day k daily st fs).1.length = fs.length := by
  induction fs generalizing k daily st with
  | nil => rfl
  | cons f fs ih => simp [processFights, ih]

theorem processReports_length (st : ProcState) (rs : List Report) :
    (processReports st rs).1.length =
      (rs.map (fun r => r.fights.length)).sum := by
  induction rs generalizing st with
  | nil => rfl
  | cons r rs ih => simp [processReports, processFights_length, ih]

/-- Claim C1: the processed table has exactly one row per attempt — its
number of rows equals the sum over all reports of the number of fights in
that report. -/
theorem c1_row_count (doc : RawDoc) :
    (processRows doc).length = (doc.reports.map (fun r => r.fights.length)).sum := by
  rw [processRows, processReports_length, List.map_reverse, List.sum_reverse]

/-- The attempts of the raw document in the order `process_data` visits them:
reports reversed, fights of each report in stored order. -/
def visitedFights (doc : RawDoc) : List Fight :=
  doc.reports.reverse.flatMap (fun r => r.fights)

theorem processFights_map_completion (day : ℤ) (k : ℕ) (daily : ℚ)
    (st : ProcState) (fs : List Fight) :
    (processFights day k daily st fs).1.map (fun r => r.pullFightCompletion) =
      fs.map (fun f => 100 - f.fightPercentage) := by
  induction fs generalizing k daily st with
  | nil => rfl
  | cons f fs ih => simp [processFights, ih]

theorem processReports_map_completion (st : ProcState) (rs : List Report) :
    (processReports st rs).1.map (fun r => r.pullFightCompletion) =
      (rs.flatMap (fun r => r.fights)).map (fun f => 100 - f.fightPercentage) := by
  induction rs generalizing st with
  | nil => rfl
  | cons r rs ih => simp [processReports, processFights_map_completion, ih]

/-- Claim C2: the completion column is exactly `100 - fightPercentage`,
attempt by attempt, for every rational `fightPercentage` — in particular
out-of-range values (below 0 or above 100) pass through the same formula with
no clamping. -/
theorem c2_completion_formula (doc : RawDoc) :
    (processRows doc).map (fun r => r.pullFightCompletion) =
      (visitedFights doc).map (fun f => 100 - f.fightPercentage) := by
  rw [processRows, visitedFights, processReports_map_completion]

theorem processFights_map_duration (day : ℤ) (k : ℕ) (daily : ℚ)
    (st : ProcState) (fs : List Fight) :
    (processFights day k daily st fs).1.map (fun r => r.pullDuration) =
      fs.map (fun f => (f.endTime - f.startTime) / 1000) := by
  induction fs generalizing k daily st with
  | nil => rfl
  | cons f fs ih => simp [processFights, ih]

theorem processReports_map_duration (st : ProcState) (rs : List Report) :
    (processReports st rs).1.map (fun r => r.pullDuration) =
      (rs.flatMap (fun r => r.fights)).map
        (fun f => (f.endTime - f.startTime) / 1000) := by
  induction rs generalizing st with
  | nil => rfl
  | cons r rs ih => simp [processReports, processFights_map_duration, ih]

/-- A one-report, one-fight document whose single attempt lasts exactly one
hour: `startTime = 0`, `endTime = 3600000` epoch milliseconds. -/
def exDocC3 : RawDoc := ⟨[⟨1, [⟨0, 3600000, 0, 0⟩]⟩]⟩

/-- Claim C3 is false on the code: for an attempt lasting one hour
(3600000 ms), the duration in hours derived from the epoch-millisecond
start and end times is 1, but the "Pull Duration" column holds 3600 (the
duration in seconds, `(endTime - startTime) / 1000`). -/
theorem c3_counterexample :
    (processRows exDocC3).map (fun r => r.pullDuration) = [3600] ∧
      ((3600000 : ℚ) - 0) / 1000 / 60 / 60 = 1 ∧ (3600 : ℚ) ≠ 1 := by
  refine ⟨?_, by norm_num, by norm_num⟩
  rw [processRows]
  norm_num [exDocC3, processReports, processFights]

/-- Claim C3 amended: the "Pull Duration" column records each attempt's
duration in seconds, `(endTime - startTime) / 1000`, derived from the
epoch-millisecond start and end times. -/
theorem c3_duration_seconds (doc : RawDoc) :
    (processRows doc).map (fun r => r.pullDuration) =
      (visitedFights doc).map (fun f => (f.endTime - f.startTime) / 1000) := by
  rw [processRows, visitedFights, processReports_map_duration]

theorem processFights_map_times (day : ℤ) (k : ℕ) (daily : ℚ)
    (st : ProcState) (fs : List Fight) :
    (processFights day k daily st fs).1.map
        (fun r => (r.pullStartTime, r.pullEndTime)) =
      fs.map (fun f => (f.startTime, f.endTime)) := by
  induction fs generalizing k daily st with
  | nil => rfl
  | cons f fs ih => simp [processFights, ih]

theorem processReports_map_times (st : ProcState) (rs : List Report) :
    (processReports st rs).1.map (fun r => (r.pullStartTime, r.pullEndTime)) =
      (rs.flatMap (fun r => r.fights)).map (fun f => (f.startTime, f.endTime)) := by
  induction rs generalizing st with
  | nil => rfl
  | cons r rs ih => simp [processReports, processFights_map_times, ih]

/-- Claim C6: `process_data` visits the reports in reverse of their stored
(newest-first) order and, within each report, the fights in their stored
order: the start/end-time columns of the row table list the attempts of
`reports.reverse.flatMap fights` in exactly that sequence. -/
theorem c6_iteration_order (doc : RawDoc) :
    (processRows doc).map (fun r => (r.pullStartTime, r.pullEndTime)) =
      (doc.reports.reverse.flatMap (fun r => r.fights)).map
        (fun f => (f.startTime, f.endTime)) := by
  rw [processRows, processReports_map_times]

theorem processFights_map_cum (day : ℤ) (k : ℕ) (daily : ℚ)
    (st : ProcState) (fs : List Fight) :
    (processFights day k daily st fs).1.map (fun r => r.cumulativePulls) =
        List.range' st.cumulativePulls fs.length ∧
      (processFights day k daily st fs).2.cumulativePulls =
        st.cumulativePulls + fs.length := by
  induction fs generalizing k daily st with
  | nil => simp [processFights]
  | cons f fs ih =>
    have h := ih (k + 1) (daily + (f.endTime - f.startTime) / 1000 / 60 / 60)
      ⟨st.cumulativePulls + 1,
        st.totalCumulativeHours + (f.endTime - f.startTime) / 1000 / 60 / 60,
        max st.highestPhase f.lastPhaseAsAbsoluteIndex,
        max st.highestFightCompletion (100 - f.fightPercentage)⟩
    refine ⟨?_, ?_⟩
    · rw [List.length_cons, List.range'_succ]
      simpa [processFights] using h.1
    · have h2 := h.2
      simp only at h2
      simp only [processFights, List.length_cons]
      omega

theorem processReports_map_cum (st : ProcState) (rs : List Report) :
    (processReports st rs).1.map (fun r => r.cumulativePulls) =
        List.range' st.cumulativePulls ((rs.map (fun r => r.fights.length)).sum) ∧
      (processReports st rs).2.cumulativePulls =
        st.cumulativePulls + (rs.map (fun r => r.fights.length)).sum := by
  induction rs generalizing st with
  | nil => simp [processReports]
  | cons r rs ih =>
    have hf := processFights_map_cum r.day 0 0 st r.fights
    have hr := ih (processFights r.day 0 0 st r.fights).2
    refine ⟨?_, ?_⟩
    · rw [processReports]
      simp only [List.map_append, hf.1, hr.1, hf.2]
      rw [List.range'_append_1]
      simp [Nat.add_comm]
    · simp only [processReports, hr.2, hf.2, List.map_cons, List.sum_cons]
      omega

/-- Claim C8: the "Cumulative Pulls" column is the strictly increasing
sequence 1, 2, 3, ..., n where n is the number of rows. -/
theorem c8_cumulative_pulls (doc : RawDoc) :
    (processRows doc).map (fun r => r.cumulativePulls) =
      List.range' 1 ((processRows doc).length) := by
  rw [processRows, processReports_length]
  exact (processReports_map_cum initState doc.reports.reverse).1

theorem processFights_hhp (day : ℤ) (k : ℕ) (daily : ℚ) (st : ProcState)
    (fs : List Fight) :
    st.highestPhase ≤ (processFights day k daily st fs).2.highestPhase ∧
      (∀ r ∈ (processFights day k daily st fs).1,
        st.highestPhase ≤ r.historicalHighestPhase ∧
          r.historicalHighestPhase ≤
            (processFights day k daily st fs).2.highestPhase) ∧
      List.Pairwise
        (fun x y => x.historicalHighestPhase ≤ y.historicalHighestPhase)
        (processFights day k daily st fs).1 := by
  induction fs generalizing k daily st with
  | nil => simp [processFights]
  | cons f fs ih =>
    have h := ih (k + 1) (daily + (f.endTime - f.startTime) / 1000 / 60 / 60)
      ⟨st.cumulativePulls + 1,
        st.totalCumulativeHours + (f.endTime - f.startTime) / 1000 / 60 / 60,
        max st.highestPhase f.lastPhaseAsAbsoluteIndex,
        max st.highestFightCompletion (100 - f.fightPercentage)⟩
    simp only at h
    simp only [processFights, List.mem_cons, List.pairwise_cons]
    refine ⟨le_trans (le_max_left _ _) h.1, ?_, ?_, h.2.2⟩
    · rintro r (rfl | hr)
      · exact ⟨le_max_left _ _, h.1⟩
      · exact ⟨le_trans (le_max_left _ _) (h.2.1 r hr).1, (h.2.1 r hr).2⟩
    · intro r hr
      exact (h.2.1 r hr).1

theorem processReports_hhp (st : ProcState) (rs : List Report) :
    st.highestPhase ≤ (processReports st rs).2.highestPhase ∧
      (∀ r ∈ (processReports st rs).1,
        st.highestPhase ≤ r.historicalHighestPhase ∧
          r.historicalHighestPhase ≤ (processReports st rs).2.highestPhase) ∧
      List.Pairwise
        (fun x y => x.historicalHighestPhase ≤ y.historicalHighestPhase)
        (processReports st rs).1 := by
  induction rs generalizing st with
  | nil => simp [processReports]
  | cons r rs ih =>
    have h1 := processFights_hhp r.day 0 0 st r.fights
    have h2 := ih (processFights r.day 0 0 st r.fights).2
    simp only [processReports, List.mem_append, List.pairwise_append]
    refine ⟨le_trans h1.1 h2.1, ?_, h1.2.2, h2.2.2, ?_⟩
    · rintro x (hx | hx)
      · exact ⟨(h1.2.1 x hx).1, le_trans (h1.2.1 x hx).2 h2.1⟩
      · exact ⟨le_trans h1.1 (h2.2.1 x hx).1, (h2.2.1 x hx).2⟩
    · intro x hx y hy
      exact le_trans (h1.2.1 x hx).2 (h2.2.1 y hy).1

theorem processFights_hhfc (day : ℤ) (k : ℕ) (daily : ℚ) (st : ProcState)
    (fs : List Fight) :
    st.highestFightCompletion ≤
        (processFights day k daily st fs).2.highestFightCompletion ∧
      (∀ r ∈ (processFights day k daily st fs).1,
        st.highestFightCompletion ≤ r.historicalHighestFightCompletion ∧
          r.historicalHighestFightCompletion ≤
            (processFights day k daily st fs).2.highestFightCompletion) ∧
      List.Pairwise
        (fun x y => x.historicalHighestFightCompletion ≤
          y.historicalHighestFightCompletion)
        (processFights day k daily st fs).1 := by
  induction fs generalizing k daily st with
  | nil => simp [processFights]
  | cons f fs ih =>
    have h := ih (k + 1) (daily + (f.endTime - f.startTime) / 1000 / 60 / 60)
      ⟨st.cumulativePulls + 1,
        st.totalCumulativeHours + (f.endTime - f.startTime) / 1000 / 60 / 60,
        max st.highestPhase f.lastPhaseAsAbsoluteIndex,
        max st.highestFightCompletion (100 - f.fightPercentage)⟩
    simp only at h
    simp only [processFights, List.mem_cons, List.pairwise_cons]
    refine ⟨le_trans (le_max_left _ _) h.1, ?_, ?_, h.2.2⟩
    · rintro r (rfl | hr)
      · exact ⟨le_max_left _ _, h.1⟩
      · exact ⟨le_trans (le_max_left _ _) (h.2.1 r hr).1, (h.2.1 r hr).2⟩
    · intro r hr
      exact (h.2.1 r hr).1

theorem processReports_hhfc (st : ProcState) (rs : List Report) :
    st.highestFightCompletion ≤
        (processReports st rs).2.highestFightCompletion ∧
      (∀ r ∈ (processReports st rs).1,
        st.highestFightCompletion ≤ r.historicalHighestFightCompletion ∧
          r.historicalHighestFightCompletion ≤
            (processReports st rs).2.highestFightCompletion) ∧
      List.Pairwise
        (fun x y => x.historicalHighestFightCompletion ≤
          y.historicalHighestFightCompletion)
        (processReports st rs).1 := by
  induction rs generalizing st with
  | nil => simp [processReports]
  | cons r rs ih =>
    have h1 := processFights_hhfc r.day 0 0 st r.fights
    have h2 := ih (processFights r.day 0 0 st r.fights).2
    simp only [processReports, List.mem_append, List.pairwise_append]
    refine ⟨le_trans h1.1 h2.1, ?_, h1.2.2, h2.2.2, ?_⟩
    · rintro x (hx | hx)
      · exact ⟨(h1.2.1 x hx).1, le_trans (h1.2.1 x hx).2 h2.1⟩
      · exact ⟨le_trans h1.1 (h2.2.1 x hx).1, (h2.2.1 x hx).2⟩
    · intro x hx y hy
      exact le_trans (h1.2.1 x hx).2 (h2.2.1 y hy).1

/-- Claim C5: the "Historical Highest Phase" and "Historical Highest Fight
Completion" columns are non-decreasing across the full row sequence. -/
theorem c5_running_maxima_monotone (doc : RawDoc) :
    List.Pairwise
        (fun x y => x.historicalHighestPhase ≤ y.historicalHighestPhase)
        (processRows doc) ∧
      List.Pairwise
        (fun x y => x.historicalHighestFightCompletion ≤
          y.historicalHighestFightCompletion)
        (processRows doc) :=
  ⟨(processReports_hhp initState doc.reports.reverse).2.2,
    (processReports_hhfc initState doc.reports.reverse).2.2⟩

/-- Claim C10: the running maxima are floored at their initial values: every
row's "Historical Highest Phase" is at least 0 and its "Historical Highest
Fight Completion" is at least 0, whatever the attempts' phase and
`fightPercentage` values are. -/
theorem c10_maxima_floor (doc : RawDoc) (r : ProgressRow)
    (hr : r ∈ processRows doc) :
    0 ≤ r.historicalHighestPhase ∧ 0 ≤ r.historicalHighestFightCompletion :=
  ⟨((processReports_hhp initState doc.reports.reverse).2.1 r hr).1,
    ((processReports_hhfc initState doc.reports.reverse).2.1 r hr).1⟩

/-- Chronological coherence of one report's fight records: every attempt ends
no earlier than it starts.  The epoch-millisecond times of a real attempt
satisfy this; `process_data` itself never checks it. -/
def FightsOk (fs : List Fight) : Prop := ∀ f ∈ fs, f.startTime ≤ f.endTime

/-- Validity of a raw document, per the spec's data model: every attempt's
end time is at or after its start time, and each report is one day of raid
attempts, so the parsed day numbers are pairwise distinct. -/
def ValidDoc (doc : RawDoc) : Prop :=
  (∀ r ∈ doc.reports, FightsOk r.fights) ∧
    (doc.reports.map (fun r => r.day)).Nodup

instance (fs : List Fight) : Decidable (FightsOk fs) := by
  unfold FightsOk
  infer_instance

instance (doc : RawDoc) : Decidable (ValidDoc doc) := by
  unfold ValidDoc
  infer_instance

theorem pullDuration_nonneg {f : Fight} (h : f.startTime ≤ f.endTime) :
    (0 : ℚ) ≤ (f.endTime - f.startTime) / 1000 / 60 / 60 := by
  have : (0 : ℚ) ≤ f.endTime - f.startTime := by linarith
  positivity

theorem processFights_total (day : ℤ) (k : ℕ) (daily : ℚ) (st : ProcState)
    (fs : List Fight) (hfs : FightsOk fs) :
    st.totalCumulativeHours ≤
        (processFights day k daily st fs).2.totalCumulativeHours ∧
      (∀ r ∈ (processFights day k daily st fs).1,
        st.totalCumulativeHours ≤ r.totalCumulativeHours ∧
          r.totalCumulativeHours ≤
            (processFights day k daily st fs).2.totalCumulativeHours) ∧
      List.Pairwise
        (fun x y => x.totalCumulativeHours ≤ y.totalCumulativeHours)
        (processFights day k daily st fs).1 := by
  induction fs generalizing k daily st with
  | nil => simp [processFights]
  | cons f fs ih =>
    have hdur := pullDuration_nonneg (hfs f (List.mem_cons_self f fs))
    have hstep : st.totalCumulativeHours ≤
        st.totalCumulativeHours + (f.endTime - f.startTime) / 1000 / 60 / 60 := by
      linarith
    have h := ih (k + 1) (daily + (f.endTime - f.startTime) / 1000 / 60 / 60)
      ⟨st.cumulativePulls + 1,
        st.totalCumulativeHours + (f.endTime - f.startTime) / 1000 / 60 / 60,
        max st.highestPhase f.lastPhaseAsAbsoluteIndex,
        max st.highestFightCompletion (100 - f.fightPercentage)⟩
      (fun g hg => hfs g (List.mem_cons_of_mem f hg))
    simp only at h
    simp only [processFights, List.mem_cons, List.pairwise_cons]
    refine ⟨le_trans hstep h.1, ?_, ?_, h.2.2⟩
    · rintro r (rfl | hr)
      · exact ⟨hstep, h.1⟩
      · exact ⟨le_trans hstep (h.2.1 r hr).1, (h.2.1 r hr).2⟩
    · intro r hr
      exact (h.2.1 r hr).1

theorem processReports_total (st : ProcState) (rs : List Report)
    (hok : ∀ r ∈ rs, FightsOk r.fights) :
    st.totalCumulativeHours ≤ (processReports st rs).2.totalCumulativeHours ∧
      (∀ r ∈ (processReports st rs).1,
        st.totalCumulativeHours ≤ r.totalCumulativeHours ∧
          r.totalCumulativeHours ≤
            (processReports st rs).2.totalCumulativeHours) ∧
      List.Pairwise
        (fun x y => x.totalCumulativeHours ≤ y.totalCumulativeHours)
        (processReports st rs).1 := by
  induction rs generalizing st with
  | nil => simp [processReports]
  | cons r rs ih =>
    have h1 := processFights_total r.day 0 0 st r.fights
      (hok r (List.mem_cons_self r rs))
    have h2 := ih (processFights r.day 0 0 st r.fights).2
      (fun x hx => hok x (List.mem_cons_of_mem r hx))
    simp only [processReports, List.mem_append, List.pairwise_append]
    refine ⟨le_trans h1.1 h2.1, ?_, h1.2.2, h2.2.2, ?_⟩
    · rintro x (hx | hx)
      · exact ⟨(h1.2.1 x hx).1, le_trans (h1.2.1 x hx).2 h2.1⟩
      · exact ⟨le_trans h1.1 (h2.2.1 x hx).1, (h2.2.1 x hx).2⟩
    · intro x hx y hy
      exact le_trans (h1.2.1 x hx).2 (h2.2.1 y hy).1

theorem processFights_daily (day : ℤ) (k : ℕ) (daily : ℚ) (st : ProcState)
    (fs : List Fight) (hfs : FightsOk fs) :
    (∀ r ∈ (processFights day k daily st fs).1,
        daily ≤ r.dailyCumulativeHours) ∧
      List.Pairwise
        (fun x y => x.dailyCumulativeHours ≤ y.dailyCumulativeHours)
        (processFights day k daily st fs).1 := by
  induction fs generalizing k daily st with
  | nil => simp [processFights]
  | cons f fs ih =>
    have hdur := pullDuration_nonneg (hfs f (List.mem_cons_self f fs))
    have hstep : daily ≤ daily + (f.endTime - f.startTime) / 1000 / 60 / 60 := by
      linarith
    have h := ih (k + 1) (daily + (f.endTime - f.startTime) / 1000 / 60 / 60)
      ⟨st.cumulativePulls + 1,
        st.totalCumulativeHours + (f.endTime - f.startTime) / 1000 / 60 / 60,
        max st.highestPhase f.lastPhaseAsAbsoluteIndex,
        max st.highestFightCompletion (100 - f.fightPercentage)⟩
      (fun g hg => hfs g (List.mem_cons_of_mem f hg))
    simp only at h
    simp only [processFights, List.mem_cons, List.pairwise_cons]
    refine ⟨?_, ?_, h.2⟩
    · rintro r (rfl | hr)
      · exact hstep
      · exact le_trans hstep (h.1 r hr)
    · intro r hr
      exact h.1 r hr

theorem processFights_day (day : ℤ) (k : ℕ) (daily : ℚ) (st : ProcState)
    (fs : List Fight) :
    ∀ r ∈ (processFights day k daily st fs).1, r.day = day := by
  induction fs generalizing k daily st with
  | nil => simp [processFights]
  | cons f fs ih =>
    simp only [processFights, List.mem_cons]
    rintro r (rfl | hr)
    · rfl
    · exact ih (k + 1) _ _ r hr

theorem processReports_day (st : ProcState) (rs : List Report) :
    ∀ r ∈ (processReports st rs).1, r.day ∈ rs.map (fun x => x.day) := by
  induction rs generalizing st with
  | nil => simp [processReports]
  | cons r rs ih =>
    simp only [processReports, List.mem_append, List.map_cons, List.mem_cons]
    rintro x (hx | hx)
    · exact Or.inl (processFights_day r.day 0 0 st r.fights x hx)
    · exact Or.inr (ih _ x hx)

theorem processReports_daily (st : ProcState) (rs : List Report)
    (hok : ∀ r ∈ rs, FightsOk r.fights)
    (hnd : (rs.map (fun r => r.day)).Nodup) :
    List.Pairwise
      (fun x y => x.day = y.day →
        x.dailyCumulativeHours ≤ y.dailyCumulativeHours)
      (processReports st rs).1 := by
  induction rs generalizing st with
  | nil => simp [processReports]
  | cons r rs ih =>
    have h1 := processFights_daily r.day 0 0 st r.fights
      (hok r (List.mem_cons_self r rs))
    have h2 := ih (processFights r.day 0 0 st r.fights).2
      (fun x hx => hok x (List.mem_cons_of_mem r hx))
      (List.nodup_cons.1 (by simpa using hnd)).2
    simp only [processReports, List.pairwise_append]
    refine ⟨?_, h2, ?_⟩
    · apply List.Pairwise.imp _ h1.2
      intro a b hle _
      exact hle
    intro x hx y hy hday
    exfalso
    have hxday : x.day = r.day := processFights_day r.day 0 0 st r.fights x hx
    have hyday : y.day ∈ rs.map (fun z => z.day) := processReports_day _ rs y hy
    have : r.day ∉ rs.map (fun z => z.day) :=
      (List.nodup_cons.1 (by simpa using hnd)).1
    rw [← hday, hxday] at hyday
    exact this hyday

theorem processReports_head (st : ProcState) (rs : List Report) :
    ∀ y, (processReports st rs).1.head? = some y →
      y.dailyCumulativeHours = y.pullDuration / 60 / 60 := by
  induction rs generalizing st with
  | nil => simp [processReports]
  | cons r rs ih =>
    intro y hy
    rcases hfr : r.fights with _ | ⟨f, fs⟩
    · rw [processReports] at hy
      rw [hfr] at hy
      simp only [processFights, List.nil_append] at hy
      exact ih _ y hy
    · rw [processReports] at hy
      rw [hfr] at hy
      simp only [processFights, List.cons_append, List.head?_cons,
        Option.some_inj] at hy
      subst hy
      simp

theorem processReports_reset (st : ProcState) (rs : List Report) :
    List.Chain'
      (fun x y => x.day ≠ y.day →
        y.dailyCumulativeHours = y.pullDuration / 60 / 60)
      (processReports st rs).1 := by
  induction rs generalizing st with
  | nil => simp [processReports]
  | cons r rs ih =>
    rw [processReports]
    refine List.Chain'.append ?_ (ih _) ?_
    · refine List.Pairwise.chain' ?_
      refine List.pairwise_of_forall_mem_list ?_
      intro a ha b hb hab
      exfalso
      rw [processFights_day r.day 0 0 st r.fights a ha,
        processFights_day r.day 0 0 st r.fights b hb] at hab
      exact hab rfl
    · intro x _ y hy _
      exact processReports_head _ rs y hy

/-- Claim C4: for a valid raw document, the "Daily Cumulative Hours" column
is non-decreasing over the rows of each day and starts accumulating fresh at
each day change (the first row after a day change holds just its own
attempt's hours), while the "Total Cumulative Hours" column is
non-decreasing across the entire row sequence. -/
theorem c4_cumulative_hours (doc : RawDoc) (h : ValidDoc doc) :
    List.Pairwise
        (fun x y => x.day = y.day →
          x.dailyCumulativeHours ≤ y.dailyCumulativeHours)
        (processRows doc) ∧
      List.Chain'
        (fun x y => x.day ≠ y.day →
          y.dailyCumulativeHours = y.pullDuration / 60 / 60)
        (processRows doc) ∧
      List.Pairwise
        (fun x y => x.totalCumulativeHours ≤ y.totalCumulativeHours)
        (processRows doc) := by
  refine ⟨?_, processReports_reset initState doc.reports.reverse, ?_⟩
  · refine processReports_daily initState doc.reports.reverse ?_ ?_
    · intro r hr
      exact h.1 r (List.mem_reverse.1 hr)
    · rw [List.map_reverse]
      exact List.nodup_reverse.2 h.2
  · refine (processReports_total initState doc.reports.reverse ?_).2.2
    intro r hr
    exact h.1 r (List.mem_reverse.1 hr)

/-- Maximum of a list of rationals, as pandas `max` over a non-empty group:
the first element folded with `max` over the rest (the `[]` case never arises
for a group produced by `groupby`). -/
def qmaxList : List ℚ → ℚ
  | [] => 0
  | x :: xs => xs.foldl max x

/-- The "Daily Cumulative Hours" values of the rows whose "Day" equals `d`. -/
def sameDayHours (rows : List ProgressRow) (d : ℤ) : List ℚ :=
  (rows.filter (fun r => r.day == d)).map (fun r => r.dailyCumulativeHours)

/-- The per-day group maximum `groupby("Day")["Daily Cumulative Hours"].max()`
for the group with key `d`. -/
def dayGroupMax (rows : List ProgressRow) (d : ℤ) : ℚ :=
  qmaxList (sameDayHours rows d)

/-- The distinct "Day" keys of the table, one per `groupby("Day")` group.
Pandas lists the keys sorted; the lookup below selects by equality, so only
distinctness matters and first-occurrence order is used here. -/
def dayKeys (rows : List ProgressRow) : List ℤ :=
  (rows.map (fun r => r.day)).dedup

/-- The frame `highest_cumulative_hours_by_day_df`: one (Day, max hours) pair
per distinct day. -/
def highestByDayTable (rows : List ProgressRow) : List (ℤ × ℚ) :=
  (dayKeys rows).map (fun d => (d, dayGroupMax rows d))

/-- The `.loc[table["Day"] == day, "Daily Cumulative Hours"].item()` lookup:
it yields a value only when exactly one table entry carries the key, and
raises otherwise (`none`). -/
def lookupItem (tbl : List (ℤ × ℚ)) (d : ℤ) : Option ℚ :=
  match tbl.filter (fun e => e.1 == d) with
  | [e] => some e.2
  | _ => none

/-- The final per-row table of `process_data`: each row paired with the
"Highest Daily Cumulative Hours" value the broadcast `apply` assigns to it. -/
def processedTable (doc : RawDoc) : List (ProgressRow × Option ℚ) :=
  (processRows doc).map
    (fun r => (r, lookupItem (highestByDayTable (processRows doc)) r.day))

theorem filter_pair_not_mem (g : ℤ → ℚ) (ds : List ℤ) (d : ℤ)
    (hd : d ∉ ds) :
    (ds.map (fun x => (x, g x))).filter (fun e => e.1 == d) = [] := by
  induction ds with
  | nil => rfl
  | cons x ds ih =>
    have hxd : ¬(x == d) = true := by
      simp only [beq_iff_eq]
      intro hx
      exact hd (hx ▸ List.mem_cons_self x ds)
    simp only [List.map_cons, List.filter_cons]
    rw [if_neg hxd]
    exact ih (fun hx => hd (List.mem_cons_of_mem x hx))

theorem filter_pair_mem (g : ℤ → ℚ) (ds : List ℤ) (d : ℤ)
    (hnd : ds.Nodup) (hd : d ∈ ds) :
    (ds.map (fun x => (x, g x))).filter (fun e => e.1 == d) = [(d, g d)] := by
  induction ds with
  | nil => cases hd
  | cons x ds ih =>
    rcases List.mem_cons.1 hd with rfl | hd2
    · simp only [List.map_cons, List.filter_cons]
      rw [if_pos (by simp)]
      rw [filter_pair_not_mem g ds d (List.nodup_cons.1 hnd).1]
    · have hxd : ¬(x == d) = true := by
        simp only [beq_iff_eq]
        intro hx
        exact (List.nodup_cons.1 hnd).1 (hx ▸ hd2)
      simp only [List.map_cons, List.filter_cons]
      rw [if_neg hxd]
      exact ih (List.nodup_cons.1 hnd).2 hd2

theorem lookupItem_highestByDay (rows : List ProgressRow) (d : ℤ)
    (hd : d ∈ dayKeys rows) :
    lookupItem (highestByDayTable rows) d = some (dayGroupMax rows d) := by
  have h := filter_pair_mem (fun x => dayGroupMax rows x) (dayKeys rows) d
    (List.nodup_dedup _) hd
  rw [lookupItem, highestByDayTable]
  rw [h]

/-- Claim C7: after the full table is built, every row's "Highest Daily
Cumulative Hours" value is defined and equals the maximum of the "Daily
Cumulative Hours" values over all rows carrying the same "Day" value. -/
theorem c7_highest_daily_broadcast (doc : RawDoc) :
    processedTable doc =
      (processRows doc).map
        (fun r => (r, some (dayGroupMax (processRows doc) r.day))) := by
  rw [processedTable]
  apply List.map_congr_left
  intro r hr
  have hd : r.day ∈ dayKeys (processRows doc) :=
    List.mem_dedup.2 (List.mem_map.2 ⟨r, hr, rfl⟩)
  rw [lookupItem_highestByDay (processRows doc) r.day hd]

theorem processReports_append (st : ProcState) (xs ys : List Report) :
    processReports st (xs ++ ys) =
      ((processReports st xs).1 ++
          (processReports (processReports st xs).2 ys).1,
        (processReports (processReports st xs).2 ys).2) := by
  induction xs generalizing st with
  | nil => simp [processReports]
  | cons x xs ih =>
    simp [processReports, ih]

theorem processFights_cons_head (day : ℤ) (st : ProcState) (f : Fight)
    (fs : List Fight) :
    ∃ tail, (processFights day 0 0 st (f :: fs)).1 =
      (⟨st.cumulativePulls, day, 1, f.startTime, f.endTime,
        f.lastPhaseAsAbsoluteIndex,
        max st.highestPhase f.lastPhaseAsAbsoluteIndex,
        100 - f.fightPercentage,
        max st.highestFightCompletion (100 - f.fightPercentage),
        (f.endTime - f.startTime) / 1000,
        (f.endTime - f.startTime) / 1000 / 60 / 60,
        st.totalCumulativeHours + (f.endTime - f.startTime) / 1000 / 60 / 60⟩ :
          ProgressRow) :: tail := by
  refine ⟨(processFights day 1 ((f.endTime - f.startTime) / 1000 / 60 / 60)
    ⟨st.cumulativePulls + 1,
      st.totalCumulativeHours + (f.endTime - f.startTime) / 1000 / 60 / 60,
      max st.highestPhase f.lastPhaseAsAbsoluteIndex,
      max st.highestFightCompletion (100 - f.fightPercentage)⟩ fs).1, ?_⟩
  simp [processFights]

/-- Claim C9: the attempt-within-day index and the daily-hours accumulator
restart at each report boundary: whichever report `r` the document holds and
wherever it sits in the stored order, the row of its first attempt has
Pull = 1 and a "Daily Cumulative Hours" equal to just that attempt's
duration in hours — also when another report carries the same day number. -/
theorem c9_report_boundary_reset (doc : RawDoc) (rs1 rs2 : List Report)
    (r : Report) (f : Fight) (fs : List Fight)
    (h1 : doc.reports = rs1 ++ r :: rs2) (h2 : r.fights = f :: fs) :
    ∃ pre row post,
      processRows doc = pre ++ row :: post ∧
        pre.length = (rs2.map (fun x => x.fights.length)).sum ∧
        row.pull = 1 ∧
        row.dailyCumulativeHours = (f.endTime - f.startTime) / 1000 / 60 / 60 := by
  obtain ⟨reports⟩ := doc
  subst h1
  have hrev : (rs1 ++ r :: rs2).reverse = rs2.reverse ++ r :: rs1.reverse := by
    simp
  obtain ⟨tail, htail⟩ := processFights_cons_head r.day
    (processReports initState rs2.reverse).2 f fs
  refine ⟨(processReports initState rs2.reverse).1,
    ⟨(processReports initState rs2.reverse).2.cumulativePulls, r.day, 1,
      f.startTime, f.endTime, f.lastPhaseAsAbsoluteIndex,
      max (processReports initState rs2.reverse).2.highestPhase
        f.lastPhaseAsAbsoluteIndex,
      100 - f.fightPercentage,
      max (processReports initState rs2.reverse).2.highestFightCompletion
        (100 - f.fightPercentage),
      (f.endTime - f.startTime) / 1000,
      (f.endTime - f.startTime) / 1000 / 60 / 60,
      (processReports initState rs2.reverse).2.totalCumulativeHours +
        (f.endTime - f.startTime) / 1000 / 60 / 60⟩,
    tail ++ (processReports
      (processFights r.day 0 0 (processReports initState rs2.reverse).2
        r.fights).2 rs1.reverse).1, ?_, ?_, rfl, rfl⟩
  · rw [processRows]
    simp only [hrev, processReports_append]
    rw [processReports]
    simp only [List.cons_append, List.append_assoc]
    rw [h2, htail]
    simp [h2]
  · rw [processReports_length, List.map_reverse, List.sum_reverse]

/-- The example document of the spec's testable properties, stored
newest-first: a "day 2" report with one 1800 s attempt, then a "day 1"
report with a 600 s and a 1200 s attempt. -/
def exDocC4 : RawDoc :=
  ⟨[⟨2, [⟨0, 1800000, 0, 0⟩]⟩,
    ⟨1, [⟨0, 600000, 0, 0⟩, ⟨700000, 1900000, 0, 0⟩]⟩]⟩

theorem c4_witness :
    ValidDoc exDocC4 ∧
      (List.Pairwise
          (fun x y => x.day = y.day →
            x.dailyCumulativeHours ≤ y.dailyCumulativeHours)
          (processRows exDocC4) ∧
        List.Chain'
          (fun x y => x.day ≠ y.day →
            y.dailyCumulativeHours = y.pullDuration / 60 / 60)
          (processRows exDocC4) ∧
        List.Pairwise
          (fun x y => x.totalCumulativeHours ≤ y.totalCumulativeHours)
          (processRows exDocC4)) :=
  ⟨by decide, c4_cumulative_hours exDocC4 (by decide)⟩

/-- A document whose two reports carry the same day number 1: newest-first, a
report with one 600 s attempt, then a report with one 1200 s attempt. -/
def exDocC9 : RawDoc :=
  ⟨[⟨1, [⟨0, 600000, 0, 0⟩]⟩, ⟨1, [⟨0, 1200000, 0, 0⟩]⟩]⟩

theorem c9_witness :
    ∃ pre row post,
      processRows exDocC9 = pre ++ row :: post ∧
        pre.length = (([] : List Report).map (fun x => x.fights.length)).sum ∧
        row.pull = 1 ∧
        row.dailyCumulativeHours = ((1200000 : ℚ) - 0) / 1000 / 60 / 60 :=
  c9_report_boundary_reset exDocC9 [⟨1, [⟨0, 600000, 0, 0⟩]⟩] []
    ⟨1, [⟨0, 1200000, 0, 0⟩]⟩ ⟨0, 1200000, 0, 0⟩ [] rfl rfl

/-- A document with a single attempt whose phase index is negative and whose
`fightPercentage` exceeds 100, so both per-pull values lie below the initial
maxima. -/
def exDocC10 : RawDoc := ⟨[⟨1, [⟨0, 1000, -5, 150⟩]⟩]⟩

theorem c10_witness :
    0 ≤ (⟨1, 1, 1, 0, 1000, -5, 0, -50, 0, 1, 1/3600, 1/3600⟩ :
        ProgressRow).historicalHighestPhase ∧
      0 ≤ (⟨1, 1, 1, 0, 1000, -5, 0, -50, 0, 1, 1/3600, 1/3600⟩ :
        ProgressRow).historicalHighestFightCompletion :=
  c10_maxima_floor exDocC10
    ⟨1, 1, 1, 0, 1000, -5, 0, -50, 0, 1, 1/3600, 1/3600⟩
    (by
      have h : processRows exDocC10 =
          [⟨1, 1, 1, 0, 1000, -5, 0, -50, 0, 1, 1/3600, 1/3600⟩] := by
        rw [processRows]
        norm_num [exDocC10, initState, processReports, processFights]
      rw [h]
      exact List.mem_singleton_self _)
